import Mathlib

/-!
Verification of the `fixedheap` bounded-heap container (`fixedheap/heap.py`).

The embedding below mirrors the source file:

* `HeapNode(key, value)` — a node ordered solely by its numeric `value`
  (score).  Scores are modelled as `Int` (the spec restricts the relevant
  claims to numeric scores); keys as `Nat`.
* `BaseSorter.index(func, items)` — `func(enumerate(items), key=...)[0]`,
  the index of the first extremal node (`func` is Python's `max` or `min`).
* `Sorter.append` — plain-list append followed by `handle_limit` when
  `Heap.reached_limit()` holds; `Min`/`Max`/`Random` supply `handle_limit`.
* `MinHeap.append` / `MaxHeap.append` — `heapq.heappush` followed by the
  same linear-scan eviction; `heappush` is embedded through CPython's
  `_siftdown` loop.
* the `sort` methods — `heapq.nsmallest(n, xs)` equals `sorted(xs)[:n]`
  and `heapq.nlargest(n, xs)` equals `sorted(xs, reverse=True)[:n]`
  (stable sorts, modelled with `List.insertionSort`); the `Random` variant
  sorts by a fresh random key per element, modelled by an arbitrary rank
  assigned to each position.
* randomness (`randint(0, len(items)-1)` and the shuffle ranks) is modelled
  adversarially: theorems quantify over every possible outcome.
  `randint(0, n-1)` yields exactly the indices below `n`, captured by
  reducing an arbitrary natural number modulo `n`.
* `Heap.__init__` stores `nodes=[]`, `limit`, and
  `aggregator or Aggregators.dummy`; it performs no validation and never
  raises.  Aggregation works on raw Python data, modelled by `PyObj`;
  the score-ordered development above takes pre-aggregated numeric scores.
* `Heap.top_n` yields `item.key` for the fresh list returned by
  `sorter.sort(self.nodes, self.limit)`; none of the `sort` methods mutate
  `self.nodes`, so draining leaves the heap state unchanged.
-/

/-- `HeapNode` from the source: a `(key, value)` pair compared by `value` only. -/
structure HeapNode where
  key : Nat
  value : Int
deriving DecidableEq, Repr

/-- Python `max(...)` replaces the current leader `x` by a later candidate `y`
only when strictly greater, so the first maximal element wins. -/
def maxBeats (y x : Int) : Bool := x < y

/-- Python `min(...)` replaces the current leader `x` by a later candidate `y`
only when strictly smaller, so the first minimal element wins. -/
def minBeats (y x : Int) : Bool := y < x

/-- `BaseSorter.index(func, items) = func(enumerate(items), key=lambda n: n[1].value)[0]`:
the index of the first extremal node, where `beats y x` is the strict
comparison `func` uses to replace its current leader. -/
def BaseSorter.index (beats : Int → Int → Bool) : List HeapNode → Nat
  | [] => 0
  | x :: xs =>
    match xs.get? (BaseSorter.index beats xs) with
    | some y => if beats y.value x.value then BaseSorter.index beats xs + 1 else 0
    | none => 0

/-- CPython `heapq._siftdown(heap, 0, pos)`: move the item at `pos` towards the
root while it is smaller than its parent, shifting parents down.  The loop
variable `pos` drops to `(pos - 1) / 2 ≤ pos - 1` on every iteration, so a
fuel of the initial `pos` (kept `≥ pos` throughout) makes the recursion
structural; the fuel-exhausted branch coincides with the `pos = 0` exit. -/
def siftdownGo (newitem : HeapNode) (fuel : Nat) (heap : List HeapNode) (pos : Nat) :
    List HeapNode :=
  match fuel with
  | 0 => heap.set pos newitem
  | fuel + 1 =>
    if 0 < pos then
      let parentpos := (pos - 1) / 2
      let parent := heap.getD parentpos newitem
      if newitem.value < parent.value then
        siftdownGo newitem fuel (heap.set pos parent) parentpos
      else
        heap.set pos newitem
    else
      heap.set pos newitem

/-- `heapq.heappush(heap, item)`: `heap.append(item); _siftdown(heap, 0, len(heap)-1)`. -/
def heappush (heap : List HeapNode) (item : HeapNode) : List HeapNode :=
  siftdownGo item heap.length (heap ++ [item]) heap.length

/-- The heap state: `Heap.__init__` stores `nodes = []` and the given `limit`
(a Python int, possibly non-positive — no validation is performed).  The
sorter is dispatched statically below and the aggregator is modelled
separately on raw `PyObj` data. -/
structure Heap where
  nodes : List HeapNode
  limit : Int
deriving DecidableEq, Repr

/-- `Heap.__init__` with empty node list. -/
def Heap.init (limit : Int) : Heap := ⟨[], limit⟩

/-- `Heap.__init__` never raises: there is no check on `limit`.  Wrapped in
`Except` to make the absence of a construction error explicit. -/
def Heap.initE (limit : Int) : Except String Heap := Except.ok (Heap.init limit)

/-- `Heap.reached_limit(): return self.limit < len(self)`. -/
def Heap.reached_limit (h : Heap) : Prop := h.limit < (h.nodes.length : Int)

instance (h : Heap) : Decidable h.reached_limit :=
  inferInstanceAs (Decidable (h.limit < (h.nodes.length : Int)))

/-- `Sorter.append`: `heap.nodes.append(node); if heap.reached_limit(): cls.handle_limit(heap.nodes)`. -/
def Sorter.append (handle_limit : List HeapNode → List HeapNode) (node : HeapNode)
    (heap : Heap) : Heap :=
  let h1 : Heap := ⟨heap.nodes ++ [node], heap.limit⟩
  if h1.reached_limit then ⟨ handle_limit h1.nodes, h1.limit⟩ else h1

/-- `Min.handle_limit`: `items.pop(cls.index(max, items))`. -/
def Min.handle_limit (items : List HeapNode) : List HeapNode :=
  items.eraseIdx (BaseSorter.index maxBeats items)

/-- `Max.handle_limit`: `items.pop(cls.index(min, items))`. -/
def Max.handle_limit (items : List HeapNode) : List HeapNode :=
  items.eraseIdx (BaseSorter.index minBeats items)

/-- `Random.handle_limit`: `items.pop(randint(0, len(items) - 1))`; the random
in-range index is an arbitrary natural number reduced modulo the length. -/
def Random.handle_limit (c : Nat) (items : List HeapNode) : List HeapNode :=
  items.eraseIdx (c % items.length)

/-- `Sorter.append` specialised to the `Min` sorter. -/
def Min.append (node : HeapNode) (heap : Heap) : Heap :=
  Sorter.append Min.handle_limit node heap

/-- `Sorter.append` specialised to the `Max` sorter. -/
def Max.append (node : HeapNode) (heap : Heap) : Heap :=
  Sorter.append Max.handle_limit node heap

/-- `Sorter.append` specialised to the `Random` sorter, `c` being the outcome
of `randint`. -/
def Random.append (c : Nat) (node : HeapNode) (heap : Heap) : Heap :=
  Sorter.append (Random.handle_limit c) node heap

/-- `MinHeap.append`: `heappush(heap.nodes, node)`, then on overflow
`heap.nodes.pop(cls.index(max, heap.nodes))`. -/
def MinHeap.append (node : HeapNode) (heap : Heap) : Heap :=
  let h1 : Heap := ⟨heappush heap.nodes node, heap.limit⟩
  if h1.reached_limit then
    ⟨h1.nodes.eraseIdx (BaseSorter.index maxBeats h1.nodes), h1.limit⟩
  else h1

/-- `MaxHeap.append`: `heappush(heap.nodes, node)`, then on overflow
`heap.nodes.pop(cls.index(min, heap.nodes))`. -/
def MaxHeap.append (node : HeapNode) (heap : Heap) : Heap :=
  let h1 : Heap := ⟨heappush heap.nodes node, heap.limit⟩
  if h1.reached_limit then
    ⟨h1.nodes.eraseIdx (BaseSorter.index minBeats h1.nodes), h1.limit⟩
  else h1

/-- `Min.sort(items, limit) = nsmallest(limit, items)`, i.e. the `limit` first
elements of the ascending stable sort (empty for non-positive `limit`). -/
def Min.sort (items : List HeapNode) (limit : Int) : List HeapNode :=
  (List.insertionSort (fun a b => a.value ≤ b.value) items).take limit.toNat

/-- `Max.sort(items, limit) = nlargest(limit, items)`, i.e. the `limit` first
elements of the descending stable sort (empty for non-positive `limit`). -/
def Max.sort (items : List HeapNode) (limit : Int) : List HeapNode :=
  (List.insertionSort (fun a b => b.value ≤ a.value) items).take limit.toNat

/-- `MinHeap.sort(items, limit) = nsmallest(limit, items)` (same body as `Min.sort`). -/
def MinHeap.sort (items : List HeapNode) (limit : Int) : List HeapNode :=
  (List.insertionSort (fun a b => a.value ≤ b.value) items).take limit.toNat

/-- `MaxHeap.sort(items, limit) = nlargest(limit, items)` (same body as `Max.sort`). -/
def MaxHeap.sort (items : List HeapNode) (limit : Int) : List HeapNode :=
  (List.insertionSort (fun a b => b.value ≤ a.value) items).take limit.toNat

/-- `Random.sort(items) = sorted(items, key=lambda _: random())`: each element
gets a fresh random sort key, one per position; the outcome is modelled by an
arbitrary rank function on positions. -/
def Random.sort (items : List HeapNode) (ranks : Nat → Nat) : List HeapNode :=
  (List.insertionSort (fun a b => ranks a.1 ≤ ranks b.1) items.enum).map Prod.snd

/-- `Heap.top_n` for the `Min` sorter: keys of `Min.sort(self.nodes, self.limit)`. -/
def Heap.top_n_min (h : Heap) : List Nat := (Min.sort h.nodes h.limit).map HeapNode.key

/-- `Heap.top_n` for the `Max` sorter: keys of `Max.sort(self.nodes, self.limit)`. -/
def Heap.top_n_max (h : Heap) : List Nat := (Max.sort h.nodes h.limit).map HeapNode.key

/-- `Heap.top_n` for the `MinHeap` sorter. -/
def Heap.top_n_min_heap (h : Heap) : List Nat := (MinHeap.sort h.nodes h.limit).map HeapNode.key

/-- `Heap.top_n` for the `MaxHeap` sorter. -/
def Heap.top_n_max_heap (h : Heap) : List Nat := (MaxHeap.sort h.nodes h.limit).map HeapNode.key

/-- `Heap.top_n` for the `Random` sorter. -/
def Heap.top_n_random (h : Heap) (ranks : Nat → Nat) : List Nat :=
  (Random.sort h.nodes ranks).map HeapNode.key

/-- Draining through `Heap.top_n` (here: the `Max` sorter) pairs the emitted
keys with the heap state left behind.  Every `sort` method returns a fresh
list (`nlargest`/`nsmallest`/`sorted`) and never reassigns or pops
`self.nodes`, so the post-drain state is the heap itself. -/
def Heap.drain_max (h : Heap) : List Nat × Heap := (h.top_n_max, h)

/-- Draining through `Heap.top_n` with the `Min` sorter; see `Heap.drain_max`. -/
def Heap.drain_min (h : Heap) : List Nat × Heap := (h.top_n_min, h)

/-- A full run of the `Min` sorter: fold `Sorter.append` over the
pre-aggregated inserts, starting from `Heap.__init__`. -/
def runMin (limit : Int) (inserts : List HeapNode) : Heap :=
  inserts.foldl (fun h node => Min.append node h) (Heap.init limit)

/-- A full run of the `Max` sorter. -/
def runMax (limit : Int) (inserts : List HeapNode) : Heap :=
  inserts.foldl (fun h node => Max.append node h) (Heap.init limit)

/-- A full run of the `MinHeap` sorter. -/
def runMinHeap (limit : Int) (inserts : List HeapNode) : Heap :=
  inserts.foldl (fun h node => MinHeap.append node h) (Heap.init limit)

/-- A full run of the `MaxHeap` sorter. -/
def runMaxHeap (limit : Int) (inserts : List HeapNode) : Heap :=
  inserts.foldl (fun h node => MaxHeap.append node h) (Heap.init limit)

/-- A full run of the `Random` sorter; `c i` is the outcome of the `randint`
call made while handling the `i`-th insert (unused when under capacity). -/
def runRandomGo (c : Nat → Nat) : List HeapNode → Nat → Heap → Heap
  | [], _, h => h
  | x :: xs, i, h => runRandomGo c xs (i + 1) (Random.append (c i) x h)

/-- A full run of the `Random` sorter from an empty heap. -/
def runRandom (limit : Int) (inserts : List HeapNode) (c : Nat → Nat) : Heap :=
  runRandomGo c inserts 0 (Heap.init limit)

/-- Raw Python data handed to `Heap.append`: either an already numeric score
or a collection of numbers, the two shapes exercised by the aggregators. -/
inductive PyObj where
  | int : Int → PyObj
  | list : List Int → PyObj
deriving DecidableEq, Repr

/-- `Aggregators.sum(obj) = sum(obj)`: defined on collections; Python's `sum`
raises `TypeError` on a bare number. -/
def Aggregators.sum : PyObj → Option PyObj
  | .list xs => some (.int xs.sum)
  | .int _ => none

/-- `Aggregators.dummy(o) = o`: the no-op aggregator. -/
def Aggregators.dummy : PyObj → Option PyObj := fun o => some o

/-- `self.aggregator = aggregator or Aggregators.dummy` in `Heap.__init__`:
an omitted (`None`) aggregator defaults to `Aggregators.dummy`. -/
def initAggregator (aggregator : Option (PyObj → Option PyObj)) : PyObj → Option PyObj :=
  aggregator.getD Aggregators.dummy

/-- A node as built by `Heap.append` before scores are known numeric. -/
structure PyNode where
  key : Nat
  value : PyObj
deriving DecidableEq, Repr

/-- `Heap.append`: `node = HeapNode(key=key, value=self.aggregator(data))`,
for a heap constructed with the given (optional) aggregator. -/
def Heap.mkNode (aggregator : Option (PyObj → Option PyObj)) (key : Nat)
    (data : PyObj) : Option PyNode :=
  (initAggregator aggregator data).map (fun v => ⟨key, v⟩)

/-- The `SortType` enum: its members are the five sorter classes. -/
inductive SortType where
  | MIN | MAX | MIN_HEAP | MAX_HEAP | RANDOM
deriving DecidableEq, Repr

/-- `SortType[name]`: Python `Enum` lookup by member name; an unknown name
raises `KeyError`, modelled by `none`. -/
def SortType.fromName (s : String) : Option SortType :=
  if s = "MIN" then some .MIN
  else if s = "MAX" then some .MAX
  else if s = "MIN_HEAP" then some .MIN_HEAP
  else if s = "MAX_HEAP" then some .MAX_HEAP
  else if s = "RANDOM" then some .RANDOM
  else none

/-- Python `str.upper()`, character by character (the policy names are ASCII). -/
def pyUpper (s : String) : String := ⟨s.data.map Char.toUpper⟩

/-- `_HeapFactory.get(sort_type)`: `SortType[sort_type.upper()].value()` and a
constructor closure `(limit, aggregator=None) -> Heap(sorter, limit, aggregator)`;
the lookup raises `KeyError` for unrecognized names (`none`).  The closure is
the heap constructor bound to the looked-up sorter. -/
def HeapFactory.get (sort_type : String) : Option (SortType × (Int → Heap)) :=
  (SortType.fromName (pyUpper sort_type)).map (fun t => (t, fun limit => Heap.init limit))

/-- Spec side: "the `limit` largest scores among all inserted items" — the
first `limit` entries of the descending sort of all inserted scores. -/
def largestVals (limit : Int) (vals : List Int) : List Int :=
  (List.insertionSort (fun a b => b ≤ a) vals).take limit.toNat

/-- Spec side: "the `limit` smallest scores among all inserted items" — the
first `limit` entries of the ascending sort of all inserted scores. -/
def smallestVals (limit : Int) (vals : List Int) : List Int :=
  (List.insertionSort (fun a b => a ≤ b) vals).take limit.toNat

/-- The scores of a list of nodes, in node order. -/
def vals (l : List HeapNode) : List Int := l.map HeapNode.value

instance : IsTotal Int (fun a b : Int => b ≤ a) := ⟨fun a b => le_total b a⟩

instance : IsTrans Int (fun a b : Int => b ≤ a) := ⟨fun _ _ _ h1 h2 => le_trans h2 h1⟩

instance : IsAntisymm Int (fun a b : Int => b ≤ a) := ⟨fun _ _ h1 h2 => le_antisymm h2 h1⟩

instance : IsTotal HeapNode (fun a b : HeapNode => a.value ≤ b.value) :=
  ⟨fun a b => le_total a.value b.value⟩

instance : IsTrans HeapNode (fun a b : HeapNode => a.value ≤ b.value) :=
  ⟨fun _ _ _ h1 h2 => le_trans h1 h2⟩

instance : IsTotal HeapNode (fun a b : HeapNode => b.value ≤ a.value) :=
  ⟨fun a b => le_total b.value a.value⟩

instance : IsTrans HeapNode (fun a b : HeapNode => b.value ≤ a.value) :=
  ⟨fun _ _ _ h1 h2 => le_trans h2 h1⟩

lemma cons_set_swap (a x : HeapNode) (xs : List HeapNode) :
    ∀ (m : Nat), m < xs.length → (a :: xs.set m x).Perm (x :: xs.set m a) := by
  induction xs with
  | nil => intro m h; simp at h
  | cons y ys ih =>
    intro m h
    cases m with
    | zero =>
      simp only [List.set_cons_zero]
      exact List.Perm.swap x a ys
    | succ m =>
      simp only [List.set_cons_succ]
      exact ((List.Perm.swap y a _).trans ((ih m (by simpa using h)).cons y)).trans
        (List.Perm.swap x y _)

lemma set_set_perm (a : HeapNode) :
    ∀ (l : List HeapNode) (i j : Nat), i < j → j < l.length →
      ((l.set j (l.getD i a)).set i a).Perm (l.set j a) := by
  intro l
  induction l with
  | nil => intro i j _ hj; simp at hj
  | cons y ys ih =>
    intro i j hij hj
    cases i with
    | zero =>
      cases j with
      | zero => omega
      | succ m =>
        simp only [List.getD_cons_zero, List.set_cons_succ, List.set_cons_zero]
        exact cons_set_swap a y ys m (by simpa using hj)
    | succ k =>
      cases j with
      | zero => omega
      | succ m =>
        simp only [List.getD_cons_succ, List.set_cons_succ]
        exact (ih k m (by omega) (by simpa using hj)).cons y

lemma siftdownGo_perm (newitem : HeapNode) :
    ∀ (fuel : Nat) (heap : List HeapNode) (pos : Nat), pos < heap.length →
      (siftdownGo newitem fuel heap pos).Perm (heap.set pos newitem) := by
  intro fuel
  induction fuel with
  | zero => intro heap pos _; exact List.Perm.refl _
  | succ fuel ih =>
    intro heap pos hpos
    rw [siftdownGo]
    by_cases h0 : 0 < pos
    · rw [if_pos h0]
      by_cases hlt : newitem.value < (heap.getD ((pos - 1) / 2) newitem).value
      · rw [if_pos hlt]
        have hpp : (pos - 1) / 2 < (heap.set pos (heap.getD ((pos - 1) / 2) newitem)).length := by
          rw [List.length_set]; omega
        exact (ih _ _ hpp).trans (set_set_perm newitem heap ((pos - 1) / 2) pos (by omega) hpos)
      · rw [if_neg hlt]
    · rw [if_neg h0]

lemma set_append_last (l : List HeapNode) (x y : HeapNode) :
    (l ++ [x]).set l.length y = l ++ [y] := by
  induction l with
  | nil => rfl
  | cons a l ih => simp only [List.cons_append, List.length_cons, List.set_cons_succ, ih]

lemma heappush_perm (heap : List HeapNode) (item : HeapNode) :
    (heappush heap item).Perm (item :: heap) := by
  have h1 : heap.length < (heap ++ [item]).length := by simp
  have h2 := siftdownGo_perm item heap.length (heap ++ [item]) heap.length h1
  rw [set_append_last] at h2
  exact h2.trans (List.perm_append_singleton item heap)

lemma index_spec (beats : Int → Int → Bool)
    (hirr : ∀ v, beats v v = false)
    (hasym : ∀ a b, beats a b = true → beats b a = false)
    (hneg : ∀ a b c, beats a b = false → beats b c = false → beats a c = false) :
    ∀ (l : List HeapNode), l ≠ [] →
      ∃ w, l.get? (BaseSorter.index beats l) = some w ∧
        ∀ z ∈ l, beats z.value w.value = false := by
  intro l
  induction l with
  | nil => intro h; exact absurd rfl h
  | cons x xs ih =>
    intro _
    cases xs with
    | nil =>
      refine ⟨x, ?_, ?_⟩
      · rfl
      · intro z hz
        rw [List.mem_singleton] at hz
        subst hz
        exact hirr _
    | cons y ys =>
      obtain ⟨w, hw, hall⟩ := ih (by simp)
      have hidx : BaseSorter.index beats (x :: y :: ys)
          = if beats w.value x.value then BaseSorter.index beats (y :: ys) + 1 else 0 := by
        conv_lhs => rw [BaseSorter.index]
        rw [hw]
      rw [hidx]
      by_cases hb : beats w.value x.value
      · rw [if_pos hb]
        refine ⟨w, ?_, ?_⟩
        · rw [List.get?_cons_succ]; exact hw
        · intro z hz
          rcases List.mem_cons.mp hz with hz | hz
          · subst hz; exact hasym _ _ hb
          · exact hall z hz
      · rw [if_neg hb]
        refine ⟨x, List.get?_cons_zero, ?_⟩
        intro z hz
        rcases List.mem_cons.mp hz with hz | hz
        · subst hz; exact hirr _
        · exact hneg _ _ _ (hall z hz) (by simpa using hb)

lemma get?_cons_eraseIdx_perm :
    ∀ (l : List HeapNode) (j : Nat) (w : HeapNode), l.get? j = some w →
      (w :: l.eraseIdx j).Perm l := by
  intro l
  induction l with
  | nil => intro j w h; simp at h
  | cons a l ih =>
    intro j w h
    cases j with
    | zero =>
      rw [List.get?_cons_zero] at h
      cases h
      rw [List.eraseIdx_cons_zero]
    | succ j =>
      rw [List.get?_cons_succ] at h
      rw [List.eraseIdx_cons_succ]
      exact (List.Perm.swap a w _).trans ((ih j w h).cons a)

lemma insertionSort_perm_eq {r : Int → Int → Prop} [DecidableRel r] [IsTotal Int r]
    [IsTrans Int r] [IsAntisymm Int r] {v1 v2 : List Int} (h : v1.Perm v2) :
    List.insertionSort r v1 = List.insertionSort r v2 :=
  List.eq_of_perm_of_sorted
    ((List.perm_insertionSort r v1).trans (h.trans (List.perm_insertionSort r v2).symm))
    (List.sorted_insertionSort r v1) (List.sorted_insertionSort r v2)

lemma insertionSort_append_last {r : Int → Int → Prop} [DecidableRel r] [IsTotal Int r]
    [IsTrans Int r] [IsAntisymm Int r] (v : List Int) (x : Int) :
    List.insertionSort r (v ++ [x]) = List.orderedInsert r x (List.insertionSort r v) := by
  refine List.eq_of_perm_of_sorted ?_ (List.sorted_insertionSort r _)
    ((List.sorted_insertionSort r v).orderedInsert x _)
  refine (List.perm_insertionSort r _).trans ?_
  exact ((List.perm_append_singleton x v).trans
    ((List.perm_insertionSort r v).symm.cons x)).trans (List.perm_orderedInsert r x _).symm

lemma orderedInsert_take {r : Int → Int → Prop} [DecidableRel r] (x : Int) :
    ∀ (P : List Int) (k : Nat),
      (List.orderedInsert r x P).take k = (List.orderedInsert r x (P.take k)).take k := by
  intro P
  induction P with
  | nil => intro k; simp
  | cons b P ih =>
    intro k
    cases k with
    | zero => simp
    | succ m =>
      by_cases hr : r x b
      · simp only [List.orderedInsert, if_pos hr, List.take_succ_cons]
        cases m with
        | zero => simp
        | succ n =>
          simp only [List.take_succ_cons, List.take_take]
          rw [Nat.min_eq_left (by omega)]
      · simp only [List.orderedInsert, if_neg hr, List.take_succ_cons]
        rw [ih m]

lemma sorted_rel_last {r : Int → Int → Prop} {Q : List Int} {k : Nat}
    (hs : List.Sorted r Q) (hlen : Q.length = k + 1) :
    ∀ y ∈ Q, y = Q.get ⟨k, by omega⟩ ∨ r y (Q.get ⟨k, by omega⟩) := by
  intro y hy
  obtain ⟨⟨i, hi⟩, rfl⟩ := List.mem_iff_get.mp hy
  by_cases hik : i = k
  · subst hik; left; rfl
  · right
    exact List.pairwise_iff_get.mp hs ⟨i, hi⟩ ⟨k, by omega⟩ (Fin.mk_lt_mk.mpr (by omega))

lemma take_append_last {Q : List Int} {k : Nat} (hlen : Q.length = k + 1) :
    Q.take k ++ [Q.get ⟨k, by omega⟩] = Q := by
  have hk : k < Q.length := by omega
  have hdrop : Q.drop k = [Q.get ⟨k, by omega⟩] := by
    have h1 := List.getElem_cons_drop Q k hk
    have h2 : Q.drop (k + 1) = [] := List.drop_eq_nil_of_le (by omega)
    rw [h2] at h1
    rw [← h1, List.get_eq_getElem]
  rw [← hdrop]
  exact List.take_append_drop k Q

lemma canon_step_under {r : Int → Int → Prop} [DecidableRel r] [IsTotal Int r] [IsTrans Int r]
    [IsAntisymm Int r] {k : Nat} {Nv P : List Int} (x : Int)
    (hinv : List.insertionSort r Nv = (List.insertionSort r P).take k)
    (hlen : Nv.length < k) :
    List.insertionSort r (Nv ++ [x]) = (List.insertionSort r (P ++ [x])).take k := by
  rw [insertionSort_append_last, insertionSort_append_last, orderedInsert_take x _ k, ← hinv]
  symm
  apply List.take_of_length_le
  have h1 := (List.perm_orderedInsert r x (List.insertionSort r Nv)).length_eq
  simp only [List.length_cons, List.length_insertionSort] at h1
  omega

lemma canon_step_over {r : Int → Int → Prop} [DecidableRel r] [IsTotal Int r] [IsTrans Int r]
    [IsAntisymm Int r] {k : Nat} {Nv v1 v1' P : List Int} {x e : Int}
    (hinv : List.insertionSort r Nv = (List.insertionSort r P).take k)
    (hlen : Nv.length = k)
    (hperm : v1.Perm (Nv ++ [x]))
    (hgr : ∀ y ∈ v1, r y e)
    (hv1' : (e :: v1').Perm v1) :
    List.insertionSort r v1' = (List.insertionSort r (P ++ [x])).take k := by
  have hc1 : List.insertionSort r v1
      = List.orderedInsert r x (List.insertionSort r Nv) := by
    rw [insertionSort_perm_eq hperm, insertionSort_append_last]
  have hQsorted : List.Sorted r (List.orderedInsert r x (List.insertionSort r Nv)) :=
    (List.sorted_insertionSort r Nv).orderedInsert x _
  set Q := List.orderedInsert r x (List.insertionSort r Nv) with hQdef
  have hQlen : Q.length = k + 1 := by
    have h1 := (List.perm_orderedInsert r x (List.insertionSort r Nv)).length_eq
    simp only [List.length_cons, List.length_insertionSort] at h1
    rw [← hQdef] at h1
    omega
  have hQv1 : Q.Perm v1 := by rw [← hc1]; exact List.perm_insertionSort r v1
  set g := Q.get ⟨k, by omega⟩ with hgdef
  have hgmem : g ∈ Q := by rw [hgdef]; exact List.get_mem Q k (by omega)
  have hge : r g e := hgr _ (hQv1.mem_iff.mp hgmem)
  have heQ : e ∈ Q := hQv1.mem_iff.mpr (hv1'.subset (List.mem_cons_self e v1'))
  have heg : e = g := by
    rcases sorted_rel_last hQsorted hQlen e heQ with h | h
    · exact h
    · exact antisymm h hge
  have hsplit : Q.take k ++ [g] = Q := take_append_last hQlen
  have hv1'Q : v1'.Perm (Q.take k) := by
    have h1 : (e :: v1').Perm (e :: Q.take k) := by
      refine hv1'.trans (hQv1.symm.trans ?_)
      rw [heg]
      conv_lhs => rw [← hsplit]
      exact List.perm_append_singleton _ _
    exact h1.cons_inv
  have htksorted : List.Sorted r (Q.take k) :=
    List.Pairwise.sublist (List.take_sublist k Q) hQsorted
  have hfin : List.insertionSort r v1' = Q.take k :=
    List.eq_of_perm_of_sorted ((List.perm_insertionSort r v1').trans hv1'Q)
      (List.sorted_insertionSort r v1') htksorted
  rw [hfin]
  conv_rhs => rw [insertionSort_append_last, orderedInsert_take x _ k, ← hinv]

lemma maxBeats_irr : ∀ v, maxBeats v v = false := by
  intro v; simp [maxBeats]

lemma maxBeats_asym : ∀ a b, maxBeats a b = true → maxBeats b a = false := by
  intro a b h; simp [maxBeats] at h ⊢; omega

lemma maxBeats_neg : ∀ a b c, maxBeats a b = false → maxBeats b c = false →
    maxBeats a c = false := by
  intro a b c h1 h2; simp [maxBeats] at h1 h2 ⊢; omega

lemma maxBeats_compat : ∀ a b : Int, maxBeats a b = false → a ≤ b := by
  intro a b h; simp [maxBeats] at h; omega

lemma minBeats_irr : ∀ v, minBeats v v = false := by
  intro v; simp [minBeats]

lemma minBeats_asym : ∀ a b, minBeats a b = true → minBeats b a = false := by
  intro a b h; simp [minBeats] at h ⊢; omega

lemma minBeats_neg : ∀ a b c, minBeats a b = false → minBeats b c = false →
    minBeats a c = false := by
  intro a b c h1 h2; simp [minBeats] at h1 h2 ⊢; omega

lemma minBeats_compat : ∀ a b : Int, minBeats a b = false → b ≤ a := by
  intro a b h; simp [minBeats] at h; omega

lemma canon_after_step {r : Int → Int → Prop} [DecidableRel r] [IsTotal Int r] [IsTrans Int r]
    [IsAntisymm Int r] {beats : Int → Int → Bool}
    (hirr : ∀ v, beats v v = false)
    (hasym : ∀ a b, beats a b = true → beats b a = false)
    (hneg : ∀ a b c, beats a b = false → beats b c = false → beats a c = false)
    (hcompat : ∀ a b, beats a b = false → r a b)
    {k : Nat} {N : List HeapNode} {P : List Int} (x : HeapNode) (nodes1 : List HeapNode)
    (hinv : List.insertionSort r (vals N) = (List.insertionSort r P).take k)
    (h1 : nodes1.Perm (N ++ [x])) :
    (nodes1.length ≤ k →
      List.insertionSort r (vals nodes1) = (List.insertionSort r (P ++ [x.value])).take k)
  ∧ (k < nodes1.length →
      List.insertionSort r (vals (nodes1.eraseIdx (BaseSorter.index beats nodes1)))
        = (List.insertionSort r (P ++ [x.value])).take k) := by
  have hvperm : (vals nodes1).Perm (vals N ++ [x.value]) := by
    have h2 := h1.map HeapNode.value
    simpa [vals] using h2
  have hlN : (vals N).length = N.length := by simp [vals]
  have hl1 : nodes1.length = N.length + 1 := by simpa using h1.length_eq
  constructor
  · intro hle
    have h3 : List.insertionSort r (vals nodes1)
        = List.insertionSort r (vals N ++ [x.value]) := insertionSort_perm_eq hvperm
    rw [h3]
    exact canon_step_under x.value hinv (by omega)
  · intro hgt
    have hNk : (vals N).length = k := by
      have h2 := congrArg List.length hinv
      simp only [List.length_insertionSort, List.length_take] at h2
      have h4 : (vals N).length ≤ k := by rw [h2]; exact inf_le_left
      omega
    have hne : nodes1 ≠ [] := by
      intro h; rw [h] at hl1; simp at hl1
    obtain ⟨w, hw, hall⟩ := index_spec beats hirr hasym hneg nodes1 hne
    have hperm2 : (w :: nodes1.eraseIdx (BaseSorter.index beats nodes1)).Perm nodes1 :=
      get?_cons_eraseIdx_perm nodes1 _ w hw
    have hv1' : (w.value :: vals (nodes1.eraseIdx (BaseSorter.index beats nodes1))).Perm
        (vals nodes1) := by
      have h2 := hperm2.map HeapNode.value
      simpa [vals] using h2
    refine canon_step_over hinv hNk hvperm ?_ hv1'
    intro y hy
    obtain ⟨z, hz, rfl⟩ := List.mem_map.mp hy
    exact hcompat _ _ (hall z hz)

lemma minAppend_canon (k : Nat) (N : List HeapNode) (P : List Int) (x : HeapNode)
    (hinv : List.insertionSort (· ≤ ·) (vals N) = (List.insertionSort (· ≤ ·) P).take k) :
    List.insertionSort (· ≤ ·) (vals (Min.append x ⟨N, (k : Int)⟩).nodes)
      = (List.insertionSort (· ≤ ·) (P ++ [x.value])).take k := by
  have hcore := canon_after_step maxBeats_irr maxBeats_asym maxBeats_neg maxBeats_compat x
    (N ++ [x]) hinv (List.Perm.refl _)
  unfold Min.append Sorter.append
  dsimp only
  by_cases hc : (⟨N ++ [x], (k : Int)⟩ : Heap).reached_limit
  · rw [if_pos hc]
    simp only [Heap.reached_limit] at hc
    exact hcore.2 (by exact_mod_cast hc)
  · rw [if_neg hc]
    simp only [Heap.reached_limit, not_lt] at hc
    exact hcore.1 (by exact_mod_cast hc)

lemma maxAppend_canon (k : Nat) (N : List HeapNode) (P : List Int) (x : HeapNode)
    (hinv : List.insertionSort (fun a b : Int => b ≤ a) (vals N)
      = (List.insertionSort (fun a b : Int => b ≤ a) P).take k) :
    List.insertionSort (fun a b : Int => b ≤ a) (vals (Max.append x ⟨N, (k : Int)⟩).nodes)
      = (List.insertionSort (fun a b : Int => b ≤ a) (P ++ [x.value])).take k := by
  have hcore := canon_after_step minBeats_irr minBeats_asym minBeats_neg minBeats_compat x
    (N ++ [x]) hinv (List.Perm.refl _)
  unfold Max.append Sorter.append
  dsimp only
  by_cases hc : (⟨N ++ [x], (k : Int)⟩ : Heap).reached_limit
  · rw [if_pos hc]
    simp only [Heap.reached_limit] at hc
    exact hcore.2 (by exact_mod_cast hc)
  · rw [if_neg hc]
    simp only [Heap.reached_limit, not_lt] at hc
    exact hcore.1 (by exact_mod_cast hc)

lemma minHeapAppend_canon (k : Nat) (N : List HeapNode) (P : List Int) (x : HeapNode)
    (hinv : List.insertionSort (· ≤ ·) (vals N) = (List.insertionSort (· ≤ ·) P).take k) :
    List.insertionSort (· ≤ ·) (vals (MinHeap.append x ⟨N, (k : Int)⟩).nodes)
      = (List.insertionSort (· ≤ ·) (P ++ [x.value])).take k := by
  have hp : (heappush N x).Perm (N ++ [x]) :=
    (heappush_perm N x).trans (List.perm_append_singleton x N).symm
  have hcore := canon_after_step maxBeats_irr maxBeats_asym maxBeats_neg maxBeats_compat x
    (heappush N x) hinv hp
  unfold MinHeap.append
  dsimp only
  by_cases hc : (⟨heappush N x, (k : Int)⟩ : Heap).reached_limit
  · rw [if_pos hc]
    simp only [Heap.reached_limit] at hc
    exact hcore.2 (by exact_mod_cast hc)
  · rw [if_neg hc]
    simp only [Heap.reached_limit, not_lt] at hc
    exact hcore.1 (by exact_mod_cast hc)

lemma maxHeapAppend_canon (k : Nat) (N : List HeapNode) (P : List Int) (x : HeapNode)
    (hinv : List.insertionSort (fun a b : Int => b ≤ a) (vals N)
      = (List.insertionSort (fun a b : Int => b ≤ a) P).take k) :
    List.insertionSort (fun a b : Int => b ≤ a) (vals (MaxHeap.append x ⟨N, (k : Int)⟩).nodes)
      = (List.insertionSort (fun a b : Int => b ≤ a) (P ++ [x.value])).take k := by
  have hp : (heappush N x).Perm (N ++ [x]) :=
    (heappush_perm N x).trans (List.perm_append_singleton x N).symm
  have hcore := canon_after_step minBeats_irr minBeats_asym minBeats_neg minBeats_compat x
    (heappush N x) hinv hp
  unfold MaxHeap.append
  dsimp only
  by_cases hc : (⟨heappush N x, (k : Int)⟩ : Heap).reached_limit
  · rw [if_pos hc]
    simp only [Heap.reached_limit] at hc
    exact hcore.2 (by exact_mod_cast hc)
  · rw [if_neg hc]
    simp only [Heap.reached_limit, not_lt] at hc
    exact hcore.1 (by exact_mod_cast hc)

lemma sorterAppend_limit (f : List HeapNode → List HeapNode) (node : HeapNode) (heap : Heap) :
    (Sorter.append f node heap).limit = heap.limit := by
  unfold Sorter.append; dsimp only; split <;> rfl

lemma minHeapAppend_limit (node : HeapNode) (heap : Heap) :
    (MinHeap.append node heap).limit = heap.limit := by
  unfold MinHeap.append; dsimp only; split <;> rfl

lemma maxHeapAppend_limit (node : HeapNode) (heap : Heap) :
    (MaxHeap.append node heap).limit = heap.limit := by
  unfold MaxHeap.append; dsimp only; split <;> rfl

lemma heap_eta (h : Heap) (k : Int) (hl : h.limit = k) : h = ⟨h.nodes, k⟩ := by
  cases h; cases hl; rfl

lemma foldl_canon {r : Int → Int → Prop} [DecidableRel r] [IsTotal Int r] [IsTrans Int r]
    [IsAntisymm Int r] (app : HeapNode → Heap → Heap)
    (happ : ∀ (kk : Nat) (N : List HeapNode) (Pp : List Int) (x : HeapNode),
      List.insertionSort r (vals N) = (List.insertionSort r Pp).take kk →
      List.insertionSort r (vals (app x ⟨N, (kk : Int)⟩).nodes)
        = (List.insertionSort r (Pp ++ [x.value])).take kk)
    (hlim : ∀ x h, (app x h).limit = h.limit)
    (k : Nat) :
    ∀ (xs N : List HeapNode) (P : List Int),
      List.insertionSort r (vals N) = (List.insertionSort r P).take k →
      List.insertionSort r (vals (xs.foldl (fun h node => app node h) ⟨N, (k : Int)⟩).nodes)
        = (List.insertionSort r (P ++ vals xs)).take k := by
  intro xs
  induction xs with
  | nil =>
    intro N P hinv
    simpa [vals] using hinv
  | cons x xs ih =>
    intro N P hinv
    rw [List.foldl_cons]
    have hstep := happ k N P x hinv
    have hh : app x ⟨N, (k : Int)⟩ = ⟨(app x ⟨N, (k : Int)⟩).nodes, (k : Int)⟩ :=
      heap_eta _ _ (hlim x _)
    rw [hh]
    have h2 := ih (app x ⟨N, (k : Int)⟩).nodes (P ++ [x.value]) hstep
    simpa [vals, List.append_assoc] using h2

lemma runMin_canon (k : Nat) (inserts : List HeapNode) :
    List.insertionSort (· ≤ ·) (vals (runMin (k : Int) inserts).nodes)
      = (List.insertionSort (· ≤ ·) (vals inserts)).take k := by
  have h0 : List.insertionSort ((· ≤ ·) : Int → Int → Prop) (vals ([] : List HeapNode))
      = (List.insertionSort ((· ≤ ·) : Int → Int → Prop) ([] : List Int)).take k := by
    simp [vals]
  have h1 := foldl_canon Min.append minAppend_canon
    (fun x h => sorterAppend_limit Min.handle_limit x h) k inserts [] [] h0
  simpa [runMin, Heap.init] using h1

lemma runMax_canon (k : Nat) (inserts : List HeapNode) :
    List.insertionSort (fun a b : Int => b ≤ a) (vals (runMax (k : Int) inserts).nodes)
      = (List.insertionSort (fun a b : Int => b ≤ a) (vals inserts)).take k := by
  have h0 : List.insertionSort (fun a b : Int => b ≤ a) (vals ([] : List HeapNode))
      = (List.insertionSort (fun a b : Int => b ≤ a) ([] : List Int)).take k := by
    simp [vals]
  have h1 := foldl_canon Max.append maxAppend_canon
    (fun x h => sorterAppend_limit Max.handle_limit x h) k inserts [] [] h0
  simpa [runMax, Heap.init] using h1

lemma runMinHeap_canon (k : Nat) (inserts : List HeapNode) :
    List.insertionSort (· ≤ ·) (vals (runMinHeap (k : Int) inserts).nodes)
      = (List.insertionSort (· ≤ ·) (vals inserts)).take k := by
  have h0 : List.insertionSort ((· ≤ ·) : Int → Int → Prop) (vals ([] : List HeapNode))
      = (List.insertionSort ((· ≤ ·) : Int → Int → Prop) ([] : List Int)).take k := by
    simp [vals]
  have h1 := foldl_canon MinHeap.append minHeapAppend_canon minHeapAppend_limit
    k inserts [] [] h0
  simpa [runMinHeap, Heap.init] using h1

lemma runMaxHeap_canon (k : Nat) (inserts : List HeapNode) :
    List.insertionSort (fun a b : Int => b ≤ a) (vals (runMaxHeap (k : Int) inserts).nodes)
      = (List.insertionSort (fun a b : Int => b ≤ a) (vals inserts)).take k := by
  have h0 : List.insertionSort (fun a b : Int => b ≤ a) (vals ([] : List HeapNode))
      = (List.insertionSort (fun a b : Int => b ≤ a) ([] : List Int)).take k := by
    simp [vals]
  have h1 := foldl_canon MaxHeap.append maxHeapAppend_canon maxHeapAppend_limit
    k inserts [] [] h0
  simpa [runMaxHeap, Heap.init] using h1

lemma canon_len {r : Int → Int → Prop} [DecidableRel r] (k : Nat) {nodes : List HeapNode}
    {allv : List Int}
    (h : List.insertionSort r (vals nodes) = (List.insertionSort r allv).take k) :
    nodes.length = min k allv.length := by
  have h2 := congrArg List.length h
  simpa [vals, List.length_insertionSort, List.length_take] using h2

lemma map_value_insertionSort {r : Int → Int → Prop} [DecidableRel r] [IsTotal Int r]
    [IsTrans Int r] [IsAntisymm Int r]
    {rn : HeapNode → HeapNode → Prop} [DecidableRel rn] [IsTotal HeapNode rn]
    [IsTrans HeapNode rn]
    (hcomp : ∀ a b, rn a b → r a.value b.value)
    (items : List HeapNode) :
    (List.insertionSort rn items).map HeapNode.value
      = List.insertionSort r (items.map HeapNode.value) := by
  refine List.eq_of_perm_of_sorted ?_ ?_ (List.sorted_insertionSort r _)
  · exact ((List.perm_insertionSort rn items).map _).trans (List.perm_insertionSort r _).symm
  · exact List.Pairwise.map _ (fun a b hab => hcomp a b hab) (List.sorted_insertionSort rn items)

lemma sort_take_perm {rn : HeapNode → HeapNode → Prop} [DecidableRel rn] (k : Nat)
    (items : List HeapNode) (h : items.length ≤ k) :
    ((List.insertionSort rn items).take k).Perm items := by
  rw [List.take_of_length_le (by rw [List.length_insertionSort]; exact h)]
  exact List.perm_insertionSort rn items

lemma sort_take_sorted {rn : HeapNode → HeapNode → Prop} [DecidableRel rn]
    [IsTotal HeapNode rn] [IsTrans HeapNode rn] (k : Nat) (items : List HeapNode) :
    List.Sorted rn ((List.insertionSort rn items).take k) :=
  List.Pairwise.sublist (List.take_sublist _ _) (List.sorted_insertionSort rn items)

lemma random_sort_perm (items : List HeapNode) (ranks : Nat → Nat) :
    (Random.sort items ranks).Perm items := by
  unfold Random.sort
  have h1 := (List.perm_insertionSort
    (fun a b : Nat × HeapNode => ranks a.1 ≤ ranks b.1) items.enum).map Prod.snd
  rwa [List.enum_map_snd] at h1

lemma randomAppend_limit (c : Nat) (x : HeapNode) (h : Heap) :
    (Random.append c x h).limit = h.limit := by
  unfold Random.append
  exact sorterAppend_limit _ _ _

lemma randomAppend_len (c : Nat) (x : HeapNode) (h : Heap) {k : Nat}
    (hl : h.limit = (k : Int)) (hle : h.nodes.length ≤ k) :
    (Random.append c x h).nodes.length = min (h.nodes.length + 1) k := by
  unfold Random.append Sorter.append Random.handle_limit
  dsimp only
  by_cases hc : (⟨h.nodes ++ [x], h.limit⟩ : Heap).reached_limit
  · rw [if_pos hc]
    simp only [Heap.reached_limit, hl, List.length_append, List.length_cons,
      List.length_nil] at hc
    have hklt : k < h.nodes.length + 1 := by exact_mod_cast hc
    dsimp only
    rw [List.length_eraseIdx]
    have hpos : 0 < (h.nodes ++ [x]).length := by simp
    rw [if_pos (Nat.mod_lt c hpos)]
    simp only [List.length_append, List.length_cons, List.length_nil]
    omega
  · rw [if_neg hc]
    simp only [Heap.reached_limit, hl, List.length_append, List.length_cons,
      List.length_nil, not_lt] at hc
    have hle2 : h.nodes.length + 1 ≤ k := by exact_mod_cast hc
    simp only [List.length_append, List.length_cons, List.length_nil]
    omega

lemma randomAppend_keys (c : Nat) (x : HeapNode) (h : Heap) :
    ((Random.append c x h).nodes.map HeapNode.key).Sublist
      (h.nodes.map HeapNode.key ++ [x.key]) := by
  unfold Random.append Sorter.append Random.handle_limit
  dsimp only
  by_cases hc : (⟨h.nodes ++ [x], h.limit⟩ : Heap).reached_limit
  · rw [if_pos hc]
    refine (List.Sublist.map HeapNode.key (List.eraseIdx_sublist _ _)).trans ?_
    simp only [List.map_append, List.map_cons, List.map_nil]
    exact List.Sublist.refl _
  · rw [if_neg hc]
    simp only [List.map_append, List.map_cons, List.map_nil]
    exact List.Sublist.refl _

lemma runRandomGo_spec (k : Nat) (c : Nat → Nat) :
    ∀ (xs : List HeapNode) (i : Nat) (h : Heap), h.limit = (k : Int) → h.nodes.length ≤ k →
      (runRandomGo c xs i h).nodes.length = min (h.nodes.length + xs.length) k
    ∧ ((runRandomGo c xs i h).nodes.map HeapNode.key).Sublist
        (h.nodes.map HeapNode.key ++ xs.map HeapNode.key) := by
  intro xs
  induction xs with
  | nil =>
    intro i h hl hle
    constructor
    · rw [runRandomGo]; simp; omega
    · rw [runRandomGo]; simp
  | cons x xs ih =>
    intro i h hl hle
    rw [runRandomGo]
    have hstep_lim : (Random.append (c i) x h).limit = (k : Int) := by
      rw [randomAppend_limit]; exact hl
    have hstep_len : (Random.append (c i) x h).nodes.length = min (h.nodes.length + 1) k :=
      randomAppend_len (c i) x h hl hle
    obtain ⟨ihl, ihk⟩ := ih (i + 1) (Random.append (c i) x h) hstep_lim (by omega)
    constructor
    · rw [ihl, hstep_len]
      simp only [List.length_cons]
      omega
    · refine ihk.trans ?_
      have h3 := List.Sublist.append (randomAppend_keys (c i) x h)
        (List.Sublist.refl (xs.map HeapNode.key))
      simpa [List.append_assoc] using h3

lemma minAppend_nil_of_nonpos {limit : Int} (hl : limit ≤ 0) (x : HeapNode) :
    (Min.append x ⟨[], limit⟩).nodes = [] := by
  unfold Min.append Sorter.append
  dsimp only
  have hc : (⟨([] : List HeapNode) ++ [x], limit⟩ : Heap).reached_limit := by
    simp only [Heap.reached_limit, List.nil_append, List.length_cons, List.length_nil]
    omega
  rw [if_pos hc]
  rfl

lemma maxAppend_nil_of_nonpos {limit : Int} (hl : limit ≤ 0) (x : HeapNode) :
    (Max.append x ⟨[], limit⟩).nodes = [] := by
  unfold Max.append Sorter.append
  dsimp only
  have hc : (⟨([] : List HeapNode) ++ [x], limit⟩ : Heap).reached_limit := by
    simp only [Heap.reached_limit, List.nil_append, List.length_cons, List.length_nil]
    omega
  rw [if_pos hc]
  rfl

lemma minHeapAppend_nil_of_nonpos {limit : Int} (hl : limit ≤ 0) (x : HeapNode) :
    (MinHeap.append x ⟨[], limit⟩).nodes = [] := by
  unfold MinHeap.append
  dsimp only
  have hc : (⟨heappush [] x, limit⟩ : Heap).reached_limit := by
    simp only [Heap.reached_limit]
    show limit < (([x] : List HeapNode).length : Int)
    simp only [List.length_cons, List.length_nil]
    omega
  rw [if_pos hc]
  rfl

lemma maxHeapAppend_nil_of_nonpos {limit : Int} (hl : limit ≤ 0) (x : HeapNode) :
    (MaxHeap.append x ⟨[], limit⟩).nodes = [] := by
  unfold MaxHeap.append
  dsimp only
  have hc : (⟨heappush [] x, limit⟩ : Heap).reached_limit := by
    simp only [Heap.reached_limit]
    show limit < (([x] : List HeapNode).length : Int)
    simp only [List.length_cons, List.length_nil]
    omega
  rw [if_pos hc]
  rfl

lemma randomAppend_nil_of_nonpos {limit : Int} (hl : limit ≤ 0) (c : Nat) (x : HeapNode) :
    (Random.append c x ⟨[], limit⟩).nodes = [] := by
  unfold Random.append Sorter.append Random.handle_limit
  dsimp only
  have hc : (⟨([] : List HeapNode) ++ [x], limit⟩ : Heap).reached_limit := by
    simp only [Heap.reached_limit, List.nil_append, List.length_cons, List.length_nil]
    omega
  rw [if_pos hc]
  show ([x] : List HeapNode).eraseIdx (c % ([x] : List HeapNode).length) = []
  simp only [List.length_cons, List.length_nil, Nat.zero_add, Nat.mod_one]
  rfl

lemma foldl_nil_inv (app : HeapNode → Heap → Heap)
    (happ : ∀ (limit : Int), limit ≤ 0 → ∀ x, (app x ⟨[], limit⟩).nodes = [])
    (hlim : ∀ x h, (app x h).limit = h.limit) (limit : Int) (hl : limit ≤ 0) :
    ∀ (xs : List HeapNode) (h : Heap), h.nodes = [] → h.limit = limit →
      (xs.foldl (fun h node => app node h) h).nodes = [] := by
  intro xs
  induction xs with
  | nil => intro h h1 _; simpa using h1
  | cons x xs ih =>
    intro h h1 h2
    rw [List.foldl_cons]
    have hh : h = ⟨[], limit⟩ := by
      rcases h with ⟨n, l⟩
      dsimp at h1 h2
      rw [h1, h2]
    refine ih _ ?_ ?_
    · rw [hh]; exact happ limit hl x
    · rw [hlim]; exact h2

lemma foldl_limit (app : HeapNode → Heap → Heap)
    (hlim : ∀ x h, (app x h).limit = h.limit) :
    ∀ (xs : List HeapNode) (h : Heap), (xs.foldl (fun h node => app node h) h).limit = h.limit := by
  intro xs
  induction xs with
  | nil => intro h; rfl
  | cons x xs ih => intro h; rw [List.foldl_cons, ih, hlim]

lemma runRandomGo_limit (c : Nat → Nat) :
    ∀ (xs : List HeapNode) (i : Nat) (h : Heap), (runRandomGo c xs i h).limit = h.limit := by
  intro xs
  induction xs with
  | nil => intro i h; rfl
  | cons x xs ih =>
    intro i h
    rw [runRandomGo, ih, randomAppend_limit]

lemma runRandomGo_nil (c : Nat → Nat) {limit : Int} (hl : limit ≤ 0) :
    ∀ (xs : List HeapNode) (i : Nat) (h : Heap), h.nodes = [] → h.limit = limit →
      (runRandomGo c xs i h).nodes = [] := by
  intro xs
  induction xs with
  | nil => intro i h h1 _; simpa using h1
  | cons x xs ih =>
    intro i h h1 h2
    rw [runRandomGo]
    have hh : h = ⟨[], limit⟩ := by
      rcases h with ⟨n, l⟩
      dsimp at h1 h2
      rw [h1, h2]
    refine ih (i + 1) _ ?_ ?_
    · rw [hh]; exact randomAppend_nil_of_nonpos hl (c i) x
    · rw [randomAppend_limit]; exact h2

lemma minAppend_limit (node : HeapNode) (heap : Heap) :
    (Min.append node heap).limit = heap.limit := by
  unfold Min.append; exact sorterAppend_limit _ _ _

lemma maxAppend_limit (node : HeapNode) (heap : Heap) :
    (Max.append node heap).limit = heap.limit := by
  unfold Max.append; exact sorterAppend_limit _ _ _

lemma runMin_limit (limit : Int) (inserts : List HeapNode) :
    (runMin limit inserts).limit = limit :=
  foldl_limit Min.append minAppend_limit inserts (Heap.init limit)

lemma runMax_limit (limit : Int) (inserts : List HeapNode) :
    (runMax limit inserts).limit = limit :=
  foldl_limit Max.append maxAppend_limit inserts (Heap.init limit)

lemma runMinHeap_limit (limit : Int) (inserts : List HeapNode) :
    (runMinHeap limit inserts).limit = limit :=
  foldl_limit MinHeap.append minHeapAppend_limit inserts (Heap.init limit)

lemma runMaxHeap_limit (limit : Int) (inserts : List HeapNode) :
    (runMaxHeap limit inserts).limit = limit :=
  foldl_limit MaxHeap.append maxHeapAppend_limit inserts (Heap.init limit)

lemma runRandom_limit (limit : Int) (inserts : List HeapNode) (c : Nat → Nat) :
    (runRandom limit inserts c).limit = limit :=
  runRandomGo_limit c inserts 0 (Heap.init limit)

lemma minSort_eq (nodes : List HeapNode) (k : Nat) :
    Min.sort nodes (k : Int)
      = (List.insertionSort (fun a b : HeapNode => a.value ≤ b.value) nodes).take k := by
  unfold Min.sort; rw [Int.toNat_natCast]

lemma maxSort_eq (nodes : List HeapNode) (k : Nat) :
    Max.sort nodes (k : Int)
      = (List.insertionSort (fun a b : HeapNode => b.value ≤ a.value) nodes).take k := by
  unfold Max.sort; rw [Int.toNat_natCast]

lemma minHeapSort_eq (nodes : List HeapNode) (k : Nat) :
    MinHeap.sort nodes (k : Int)
      = (List.insertionSort (fun a b : HeapNode => a.value ≤ b.value) nodes).take k := by
  unfold MinHeap.sort; rw [Int.toNat_natCast]

lemma maxHeapSort_eq (nodes : List HeapNode) (k : Nat) :
    MaxHeap.sort nodes (k : Int)
      = (List.insertionSort (fun a b : HeapNode => b.value ≤ a.value) nodes).take k := by
  unfold MaxHeap.sort; rw [Int.toNat_natCast]

lemma drain_vals {r : Int → Int → Prop} [DecidableRel r] [IsTotal Int r] [IsTrans Int r]
    [IsAntisymm Int r] {rn : HeapNode → HeapNode → Prop} [DecidableRel rn]
    [IsTotal HeapNode rn] [IsTrans HeapNode rn]
    (hcomp : ∀ a b, rn a b → r a.value b.value)
    (k : Nat) (nodes : List HeapNode) (allv : List Int)
    (hcanon : List.insertionSort r (vals nodes) = (List.insertionSort r allv).take k) :
    vals ((List.insertionSort rn nodes).take k) = (List.insertionSort r allv).take k := by
  unfold vals
  rw [List.map_take, map_value_insertionSort hcomp nodes]
  have hv : nodes.map HeapNode.value = vals nodes := rfl
  rw [hv, hcanon, List.take_take, Nat.min_self]

lemma asc_comp : ∀ a b : HeapNode, (fun a b : HeapNode => a.value ≤ b.value) a b →
    ((· ≤ ·) : Int → Int → Prop) a.value b.value := fun _ _ h => h

lemma desc_comp : ∀ a b : HeapNode, (fun a b : HeapNode => b.value ≤ a.value) a b →
    (fun a b : Int => b ≤ a) a.value b.value := fun _ _ h => h

lemma SortType.fromName_not_mem {u : String}
    (h : u ∉ ["MIN", "MAX", "MIN_HEAP", "MAX_HEAP", "RANDOM"]) :
    SortType.fromName u = none := by
  simp only [List.mem_cons, List.mem_singleton, not_or] at h
  obtain ⟨h1, h2, h3, h4, h5⟩ := h
  unfold SortType.fromName
  rw [if_neg h1, if_neg h2, if_neg h3, if_neg h4, if_neg (by simpa using h5)]

/-- C1: for every heap built by the max-retaining policy (both the plain-list
`Max` sorter and the heapq-based `MaxHeap` sorter) with positive limit and
every insert sequence with numeric scores, the retained nodes carry exactly
the `limit` largest scores (as a multiset), and drain emits exactly the
retained nodes' keys in non-increasing score order. -/
theorem claim_C1_max_retaining (limit : Int) (hl : 0 < limit) (inserts : List HeapNode) :
    ((vals (runMax limit inserts).nodes).Perm (largestVals limit (vals inserts))
      ∧ (Max.sort (runMax limit inserts).nodes (runMax limit inserts).limit).Perm
          (runMax limit inserts).nodes
      ∧ List.Sorted (fun a b : Int => b ≤ a)
          (vals (Max.sort (runMax limit inserts).nodes (runMax limit inserts).limit))
      ∧ (runMax limit inserts).top_n_max
          = (Max.sort (runMax limit inserts).nodes (runMax limit inserts).limit).map
              HeapNode.key)
  ∧ ((vals (runMaxHeap limit inserts).nodes).Perm (largestVals limit (vals inserts))
      ∧ (MaxHeap.sort (runMaxHeap limit inserts).nodes (runMaxHeap limit inserts).limit).Perm
          (runMaxHeap limit inserts).nodes
      ∧ List.Sorted (fun a b : Int => b ≤ a)
          (vals (MaxHeap.sort (runMaxHeap limit inserts).nodes
            (runMaxHeap limit inserts).limit))
      ∧ (runMaxHeap limit inserts).top_n_max_heap
          = (MaxHeap.sort (runMaxHeap limit inserts).nodes
              (runMaxHeap limit inserts).limit).map HeapNode.key) := by
  obtain ⟨k, rfl⟩ : ∃ k : Nat, limit = (k : Int) :=
    ⟨limit.toNat, (Int.toNat_of_nonneg (le_of_lt hl)).symm⟩
  have hcanon := runMax_canon k inserts
  have hcanonH := runMaxHeap_canon k inserts
  have hlim := runMax_limit (k : Int) inserts
  have hlimH := runMaxHeap_limit (k : Int) inserts
  have hlen : (runMax (k : Int) inserts).nodes.length ≤ k := by
    have := canon_len k hcanon; omega
  have hlenH : (runMaxHeap (k : Int) inserts).nodes.length ≤ k := by
    have := canon_len k hcanonH; omega
  have hLv : largestVals (k : Int) (vals inserts)
      = (List.insertionSort (fun a b : Int => b ≤ a) (vals inserts)).take k := by
    unfold largestVals; rw [Int.toNat_natCast]
  refine ⟨⟨?_, ?_, ?_, rfl⟩, ⟨?_, ?_, ?_, rfl⟩⟩
  · rw [hLv, ← hcanon]; exact (List.perm_insertionSort _ _).symm
  · rw [hlim, maxSort_eq]; exact sort_take_perm k _ hlen
  · rw [hlim, maxSort_eq, drain_vals desc_comp k _ (vals inserts) hcanon]
    exact List.Pairwise.sublist (List.take_sublist _ _) (List.sorted_insertionSort _ _)
  · rw [hLv, ← hcanonH]; exact (List.perm_insertionSort _ _).symm
  · rw [hlimH, maxHeapSort_eq]; exact sort_take_perm k _ hlenH
  · rw [hlimH, maxHeapSort_eq, drain_vals desc_comp k _ (vals inserts) hcanonH]
    exact List.Pairwise.sublist (List.take_sublist _ _) (List.sorted_insertionSort _ _)

/-- Witness for C1 at limit 3 and the spec's Scenario A scores [5, 1, 9, 2, 7]. -/
theorem claim_C1_witness :
    (0 : Int) < 3
  ∧ (vals (runMax 3 [⟨1, 5⟩, ⟨2, 1⟩, ⟨3, 9⟩, ⟨4, 2⟩, ⟨5, 7⟩]).nodes).Perm
      (largestVals 3 (vals [⟨1, 5⟩, ⟨2, 1⟩, ⟨3, 9⟩, ⟨4, 2⟩, ⟨5, 7⟩])) :=
  ⟨by decide,
   (claim_C1_max_retaining 3 (by decide) [⟨1, 5⟩, ⟨2, 1⟩, ⟨3, 9⟩, ⟨4, 2⟩, ⟨5, 7⟩]).1.1⟩

/-- C2: for every heap built by the min-retaining policy (both the plain-list
`Min` sorter and the heapq-based `MinHeap` sorter) with positive limit and
every insert sequence with numeric scores, the retained nodes carry exactly
the `limit` smallest scores (as a multiset), and drain emits exactly the
retained nodes' keys in non-decreasing score order. -/
theorem claim_C2_min_retaining (limit : Int) (hl : 0 < limit) (inserts : List HeapNode) :
    ((vals (runMin limit inserts).nodes).Perm (smallestVals limit (vals inserts))
      ∧ (Min.sort (runMin limit inserts).nodes (runMin limit inserts).limit).Perm
          (runMin limit inserts).nodes
      ∧ List.Sorted (fun a b : Int => a ≤ b)
          (vals (Min.sort (runMin limit inserts).nodes (runMin limit inserts).limit))
      ∧ (runMin limit inserts).top_n_min
          = (Min.sort (runMin limit inserts).nodes (runMin limit inserts).limit).map
              HeapNode.key)
  ∧ ((vals (runMinHeap limit inserts).nodes).Perm (smallestVals limit (vals inserts))
      ∧ (MinHeap.sort (runMinHeap limit inserts).nodes (runMinHeap limit inserts).limit).Perm
          (runMinHeap limit inserts).nodes
      ∧ List.Sorted (fun a b : Int => a ≤ b)
          (vals (MinHeap.sort (runMinHeap limit inserts).nodes
            (runMinHeap limit inserts).limit))
      ∧ (runMinHeap limit inserts).top_n_min_heap
          = (MinHeap.sort (runMinHeap limit inserts).nodes
              (runMinHeap limit inserts).limit).map HeapNode.key) := by
  obtain ⟨k, rfl⟩ : ∃ k : Nat, limit = (k : Int) :=
    ⟨limit.toNat, (Int.toNat_of_nonneg (le_of_lt hl)).symm⟩
  have hcanon := runMin_canon k inserts
  have hcanonH := runMinHeap_canon k inserts
  have hlim := runMin_limit (k : Int) inserts
  have hlimH := runMinHeap_limit (k : Int) inserts
  have hlen : (runMin (k : Int) inserts).nodes.length ≤ k := by
    have := canon_len k hcanon; omega
  have hlenH : (runMinHeap (k : Int) inserts).nodes.length ≤ k := by
    have := canon_len k hcanonH; omega
  have hSv : smallestVals (k : Int) (vals inserts)
      = (List.insertionSort ((· ≤ ·) : Int → Int → Prop) (vals inserts)).take k := by
    unfold smallestVals; rw [Int.toNat_natCast]
  refine ⟨⟨?_, ?_, ?_, rfl⟩, ⟨?_, ?_, ?_, rfl⟩⟩
  · rw [hSv, ← hcanon]; exact (List.perm_insertionSort _ _).symm
  · rw [hlim, minSort_eq]; exact sort_take_perm k _ hlen
  · rw [hlim, minSort_eq, drain_vals asc_comp k _ (vals inserts) hcanon]
    exact List.Pairwise.sublist (List.take_sublist _ _) (List.sorted_insertionSort _ _)
  · rw [hSv, ← hcanonH]; exact (List.perm_insertionSort _ _).symm
  · rw [hlimH, minHeapSort_eq]; exact sort_take_perm k _ hlenH
  · rw [hlimH, minHeapSort_eq, drain_vals asc_comp k _ (vals inserts) hcanonH]
    exact List.Pairwise.sublist (List.take_sublist _ _) (List.sorted_insertionSort _ _)

/-- Witness for C2 at limit 3 and the spec's Scenario B scores [5, 1, 9, 2, 7]. -/
theorem claim_C2_witness :
    (0 : Int) < 3
  ∧ (vals (runMin 3 [⟨1, 5⟩, ⟨2, 1⟩, ⟨3, 9⟩, ⟨4, 2⟩, ⟨5, 7⟩]).nodes).Perm
      (smallestVals 3 (vals [⟨1, 5⟩, ⟨2, 1⟩, ⟨3, 9⟩, ⟨4, 2⟩, ⟨5, 7⟩])) :=
  ⟨by decide,
   (claim_C2_min_retaining 3 (by decide) [⟨1, 5⟩, ⟨2, 1⟩, ⟨3, 9⟩, ⟨4, 2⟩, ⟨5, 7⟩]).1.1⟩

/-- C3: with a positive limit, under every policy, `len(heap) ≤ limit` holds
after any sequence of inserts (hence after every insert), for every outcome
of the random choices. -/
theorem claim_C3_len_le_limit (limit : Int) (hl : 0 < limit) (inserts : List HeapNode)
    (c : Nat → Nat) :
    ((runMin limit inserts).nodes.length : Int) ≤ limit
  ∧ ((runMax limit inserts).nodes.length : Int) ≤ limit
  ∧ ((runMinHeap limit inserts).nodes.length : Int) ≤ limit
  ∧ ((runMaxHeap limit inserts).nodes.length : Int) ≤ limit
  ∧ ((runRandom limit inserts c).nodes.length : Int) ≤ limit := by
  obtain ⟨k, rfl⟩ : ∃ k : Nat, limit = (k : Int) :=
    ⟨limit.toNat, (Int.toNat_of_nonneg (le_of_lt hl)).symm⟩
  have h1 := canon_len k (runMin_canon k inserts)
  have h2 := canon_len k (runMax_canon k inserts)
  have h3 := canon_len k (runMinHeap_canon k inserts)
  have h4 := canon_len k (runMaxHeap_canon k inserts)
  have h5 : (runRandom (k : Int) inserts c).nodes.length
      = min ((Heap.init (k : Int)).nodes.length + inserts.length) k :=
    (runRandomGo_spec k c inserts 0 (Heap.init (k : Int)) rfl (by simp [Heap.init])).1
  simp only [Heap.init, List.length_nil] at h5
  refine ⟨?_, ?_, ?_, ?_, ?_⟩
  · exact_mod_cast (show (runMin (k : Int) inserts).nodes.length ≤ k by omega)
  · exact_mod_cast (show (runMax (k : Int) inserts).nodes.length ≤ k by omega)
  · exact_mod_cast (show (runMinHeap (k : Int) inserts).nodes.length ≤ k by omega)
  · exact_mod_cast (show (runMaxHeap (k : Int) inserts).nodes.length ≤ k by omega)
  · exact_mod_cast (show (runRandom (k : Int) inserts c).nodes.length ≤ k by omega)

/-- Witness for C3 at limit 2, three inserts, constant random choices. -/
theorem claim_C3_witness :
    (0 : Int) < 2
  ∧ ((runMin 2 [⟨1, 4⟩, ⟨2, 6⟩, ⟨3, 5⟩]).nodes.length : Int) ≤ 2 :=
  ⟨by decide, (claim_C3_len_le_limit 2 (by decide) [⟨1, 4⟩, ⟨2, 6⟩, ⟨3, 5⟩] (fun _ => 0)).1⟩

/-- C10: a heap constructed with `limit ≤ 0` (construction raises no error)
stays empty: under every policy, after any sequence of inserts the node list
is empty — each appended node is immediately evicted. -/
theorem claim_C10_nonpositive_limit_empty (limit : Int) (hl : limit ≤ 0)
    (inserts : List HeapNode) (c : Nat → Nat) :
    (runMin limit inserts).nodes = []
  ∧ (runMax limit inserts).nodes = []
  ∧ (runMinHeap limit inserts).nodes = []
  ∧ (runMaxHeap limit inserts).nodes = []
  ∧ (runRandom limit inserts c).nodes = [] := by
  refine ⟨?_, ?_, ?_, ?_, ?_⟩
  · exact foldl_nil_inv Min.append (fun l hal x => minAppend_nil_of_nonpos hal x)
      minAppend_limit limit hl inserts (Heap.init limit) rfl rfl
  · exact foldl_nil_inv Max.append (fun l hal x => maxAppend_nil_of_nonpos hal x)
      maxAppend_limit limit hl inserts (Heap.init limit) rfl rfl
  · exact foldl_nil_inv MinHeap.append (fun l hal x => minHeapAppend_nil_of_nonpos hal x)
      minHeapAppend_limit limit hl inserts (Heap.init limit) rfl rfl
  · exact foldl_nil_inv MaxHeap.append (fun l hal x => maxHeapAppend_nil_of_nonpos hal x)
      maxHeapAppend_limit limit hl inserts (Heap.init limit) rfl rfl
  · exact runRandomGo_nil c hl inserts 0 (Heap.init limit) rfl rfl

/-- Witness for C10 at limit 0 with two inserts. -/
theorem claim_C10_witness :
    (0 : Int) ≤ 0 ∧ (runMin 0 [⟨1, 4⟩, ⟨2, 6⟩]).nodes = [] :=
  ⟨by decide,
   (claim_C10_nonpositive_limit_empty 0 (by decide) [⟨1, 4⟩, ⟨2, 6⟩] (fun _ => 0)).1⟩

/-- C4 fails on the code: `top_n` iterates a fresh sorted list and never
mutates `self.nodes`, so drain is not destructive.  Concretely, after one
insert into a max heap of limit 3, fully consuming drain leaves `len() = 1`
(not 0) and a second drain emits the same key again (not the empty
sequence). -/
theorem claim_C4_counterexample :
    (runMax 3 [⟨1, 5⟩]).drain_max.1 = [1]
  ∧ (runMax 3 [⟨1, 5⟩]).drain_max.2.nodes.length = 1
  ∧ (runMax 3 [⟨1, 5⟩]).drain_max.2.nodes.length ≠ 0
  ∧ (runMax 3 [⟨1, 5⟩]).drain_max.2.drain_max.1 = [1]
  ∧ (runMax 3 [⟨1, 5⟩]).drain_max.2.drain_max.1 ≠ [] := by
  refine ⟨by decide, by decide, by decide, by decide, by decide⟩

/-- C4 amended: drain is non-destructive.  Consuming `top_n` leaves the heap
state (and hence `len()`) unchanged, and a second drain yields the same
sequence as the first for the deterministic sorters (the `Random` sorter
re-shuffles, but over the same unchanged nodes). -/
theorem claim_C4_drain_nondestructive (h : Heap) :
    h.drain_max.2 = h
  ∧ h.drain_min.2 = h
  ∧ h.drain_max.2.nodes.length = h.nodes.length
  ∧ h.drain_max.2.drain_max.1 = h.drain_max.1
  ∧ h.drain_min.2.drain_min.1 = h.drain_min.1 :=
  ⟨rfl, rfl, rfl, rfl, rfl⟩

/-- C5 fails on the code: `Heap.__init__` stores
`aggregator or Aggregators.dummy`, so an omitted aggregator defaults to the
identity `dummy`, not to `sum`.  Inserting `data = [1, 2]` with the default
yields a node scored by the raw list itself, while `sum` would give 3. -/
theorem claim_C5_counterexample :
    Heap.mkNode none 0 (PyObj.list [1, 2]) = some ⟨0, PyObj.list [1, 2]⟩
  ∧ Aggregators.sum (PyObj.list [1, 2]) = some (PyObj.int 3)
  ∧ PyObj.list [1, 2] ≠ PyObj.int 3 := by
  refine ⟨by decide, by decide, by decide⟩

/-- C5 amended: with an omitted aggregator the default is `Aggregators.dummy`
(the identity), so the node built by `Heap.append` scores the raw data
itself: `insert(key, data)` produces the node `(key, data)`. -/
theorem claim_C5_default_is_dummy (kk : Nat) (data : PyObj) :
    Heap.mkNode none kk data = some ⟨kk, data⟩
  ∧ initAggregator none = Aggregators.dummy :=
  ⟨rfl, rfl⟩

/-- C6 fails on the code: `Heap.__init__` performs no validation of `limit`;
construction succeeds (returns a heap, raising nothing) for `limit = 0` and
for negative limits alike. -/
theorem claim_C6_counterexample :
    Heap.initE 0 = Except.ok (Heap.init 0)
  ∧ Heap.initE (-1) = Except.ok (Heap.init (-1)) :=
  ⟨rfl, rfl⟩

/-- C6 amended: construction never fails — for every integer `limit`
(positive, zero or negative) `Heap.__init__` raises no error and returns a
heap with empty node list and the given limit stored unchanged. -/
theorem claim_C6_no_validation (limit : Int) :
    Heap.initE limit = Except.ok (Heap.init limit)
  ∧ (Heap.init limit).nodes = []
  ∧ (Heap.init limit).limit = limit :=
  ⟨rfl, rfl, rfl⟩

/-- C7 fails on the code: `_HeapFactory.get` looks the upper-cased name up in
the `SortType` enum, and `SortType[...]` raises `KeyError` for an
unrecognized name — there is no fallback to the Max sorter. -/
theorem claim_C7_counterexample :
    HeapFactory.get "bogus" = none
  ∧ (HeapFactory.get "max").map Prod.fst = some SortType.MAX := by
  refine ⟨rfl, rfl⟩

/-- C7 amended: the factory lookup is case-insensitive (it depends only on
the upper-cased name), but an unrecognized name raises `KeyError` (no
constructor is returned) instead of falling back to the Max policy. -/
theorem claim_C7_factory_lookup (s t : String) (hst : pyUpper s = pyUpper t) :
    HeapFactory.get s = HeapFactory.get t
  ∧ (pyUpper s ∉ ["MIN", "MAX", "MIN_HEAP", "MAX_HEAP", "RANDOM"] →
      HeapFactory.get s = none) := by
  constructor
  · unfold HeapFactory.get; rw [hst]
  · intro h
    unfold HeapFactory.get
    rw [SortType.fromName_not_mem h]
    rfl

/-- Witness for C7: mixed-case lookups agree, unknown names yield no ctor. -/
theorem claim_C7_witness :
    HeapFactory.get "mIn" = HeapFactory.get "MiN"
  ∧ HeapFactory.get "bogus" = none :=
  ⟨(claim_C7_factory_lookup "mIn" "MiN" rfl).1,
   (claim_C7_factory_lookup "bogus" "bogus" rfl).2 (by decide)⟩

/-- C8: for the random-retaining policy with positive limit, pairwise-distinct
keys, and every outcome of the random choices (eviction indices and shuffle
ranks), drain emits exactly `min(limit, total_inserts)` keys, each of which
was inserted, with no duplicates. -/
theorem claim_C8_random_retaining (limit : Int) (hl : 0 < limit) (inserts : List HeapNode)
    (hkeys : (inserts.map HeapNode.key).Nodup) (c : Nat → Nat) (ranks : Nat → Nat) :
    ((runRandom limit inserts c).top_n_random ranks).length
      = min limit.toNat inserts.length
  ∧ (∀ kk ∈ (runRandom limit inserts c).top_n_random ranks, kk ∈ inserts.map HeapNode.key)
  ∧ ((runRandom limit inserts c).top_n_random ranks).Nodup := by
  obtain ⟨k, rfl⟩ : ∃ k : Nat, limit = (k : Int) :=
    ⟨limit.toNat, (Int.toNat_of_nonneg (le_of_lt hl)).symm⟩
  have hspec := runRandomGo_spec k c inserts 0 (Heap.init (k : Int)) rfl (by simp [Heap.init])
  have hlen : (runRandom (k : Int) inserts c).nodes.length = min (inserts.length) k := by
    have h1 := hspec.1
    simpa [Heap.init] using h1
  have hsub : ((runRandom (k : Int) inserts c).nodes.map HeapNode.key).Sublist
      (inserts.map HeapNode.key) := by
    have h2 := hspec.2
    simpa [Heap.init] using h2
  have hkperm : ((runRandom (k : Int) inserts c).top_n_random ranks).Perm
      ((runRandom (k : Int) inserts c).nodes.map HeapNode.key) :=
    (random_sort_perm _ ranks).map HeapNode.key
  refine ⟨?_, ?_, ?_⟩
  · rw [hkperm.length_eq, List.length_map, hlen, Int.toNat_natCast, Nat.min_comm]
  · intro kk hkk
    exact hsub.subset (hkperm.mem_iff.mp hkk)
  · exact hkperm.nodup_iff.mpr (List.Nodup.sublist hsub hkeys)

/-- Witness for C8 at limit 2, three distinct-keyed inserts, concrete choices. -/
theorem claim_C8_witness :
    ((0 : Int) < 2 ∧ ([⟨1, 4⟩, ⟨2, 6⟩, ⟨3, 5⟩].map HeapNode.key).Nodup)
  ∧ ((runRandom 2 [⟨1, 4⟩, ⟨2, 6⟩, ⟨3, 5⟩] (fun i => i)).top_n_random (fun i => 9 - i)).length
      = min (2 : Int).toNat 3 :=
  ⟨⟨by decide, by decide⟩,
   (claim_C8_random_retaining 2 (by decide) [⟨1, 4⟩, ⟨2, 6⟩, ⟨3, 5⟩] (by decide)
     (fun i => i) (fun i => 9 - i)).1⟩

/-- C9: the plain-list and heapq-based variants of each policy are
observationally equivalent on scores — for every positive limit and insert
sequence, `Min` and `MinHeap` retain the same multiset of scores and drain
the same score sequence, and likewise `Max` and `MaxHeap`. -/
theorem claim_C9_variants_equivalent (limit : Int) (hl : 0 < limit)
    (inserts : List HeapNode) :
    (vals (runMin limit inserts).nodes).Perm (vals (runMinHeap limit inserts).nodes)
  ∧ vals (Min.sort (runMin limit inserts).nodes (runMin limit inserts).limit)
      = vals (MinHeap.sort (runMinHeap limit inserts).nodes (runMinHeap limit inserts).limit)
  ∧ (vals (runMax limit inserts).nodes).Perm (vals (runMaxHeap limit inserts).nodes)
  ∧ vals (Max.sort (runMax limit inserts).nodes (runMax limit inserts).limit)
      = vals (MaxHeap.sort (runMaxHeap limit inserts).nodes
          (runMaxHeap limit inserts).limit) := by
  obtain ⟨k, rfl⟩ : ∃ k : Nat, limit = (k : Int) :=
    ⟨limit.toNat, (Int.toNat_of_nonneg (le_of_lt hl)).symm⟩
  have hm := runMin_canon k inserts
  have hmh := runMinHeap_canon k inserts
  have hM := runMax_canon k inserts
  have hMh := runMaxHeap_canon k inserts
  refine ⟨?_, ?_, ?_, ?_⟩
  · have pa := (List.perm_insertionSort ((· ≤ ·) : Int → Int → Prop)
      (vals (runMin (k : Int) inserts).nodes)).symm
    rw [hm, ← hmh] at pa
    exact pa.trans (List.perm_insertionSort _ _)
  · rw [runMin_limit, runMinHeap_limit, minSort_eq, minHeapSort_eq,
      drain_vals asc_comp k _ (vals inserts) hm,
      drain_vals asc_comp k _ (vals inserts) hmh]
  · have pa := (List.perm_insertionSort (fun a b : Int => b ≤ a)
      (vals (runMax (k : Int) inserts).nodes)).symm
    rw [hM, ← hMh] at pa
    exact pa.trans (List.perm_insertionSort _ _)
  · rw [runMax_limit, runMaxHeap_limit, maxSort_eq, maxHeapSort_eq,
      drain_vals desc_comp k _ (vals inserts) hM,
      drain_vals desc_comp k _ (vals inserts) hMh]

/-- Witness for C9 at limit 2 with three inserts. -/
theorem claim_C9_witness :
    (0 : Int) < 2
  ∧ (vals (runMin 2 [⟨1, 4⟩, ⟨2, 6⟩, ⟨3, 5⟩]).nodes).Perm
      (vals (runMinHeap 2 [⟨1, 4⟩, ⟨2, 6⟩, ⟨3, 5⟩]).nodes) :=
  ⟨by decide, (claim_C9_variants_equivalent 2 (by decide) [⟨1, 4⟩, ⟨2, 6⟩, ⟨3, 5⟩]).1⟩

/-- Spec Scenario A: limit 3, scores [5, 1, 9, 2, 7], max-retaining →
drained scores [9, 7, 5] (keys 3, 5, 1), for both Max variants. -/
theorem scenario_A_max :
    (runMax 3 [⟨1, 5⟩, ⟨2, 1⟩, ⟨3, 9⟩, ⟨4, 2⟩, ⟨5, 7⟩]).top_n_max = [3, 5, 1]
  ∧ (runMaxHeap 3 [⟨1, 5⟩, ⟨2, 1⟩, ⟨3, 9⟩, ⟨4, 2⟩, ⟨5, 7⟩]).top_n_max_heap = [3, 5, 1] := by
  refine ⟨by decide, by decide⟩

/-- Spec Scenario B: limit 3, scores [5, 1, 9, 2, 7], min-retaining →
drained scores [1, 2, 5] (keys 2, 4, 1), for both Min variants. -/
theorem scenario_B_min :
    (runMin 3 [⟨1, 5⟩, ⟨2, 1⟩, ⟨3, 9⟩, ⟨4, 2⟩, ⟨5, 7⟩]).top_n_min = [2, 4, 1]
  ∧ (runMinHeap 3 [⟨1, 5⟩, ⟨2, 1⟩, ⟨3, 9⟩, ⟨4, 2⟩, ⟨5, 7⟩]).top_n_min_heap = [2, 4, 1] := by
  refine ⟨by decide, by decide⟩
